import Mathlib

/-!
Verification of the GraphFM implementation (graphfm.py, generic and movielens
variants) against its natural-language specification.  Machine floats are
modelled by exact rationals where the computation is order/field arithmetic,
and by real numbers where it is transcendental (exp, log, sqrt).
-/

set_option maxHeartbeats 1000000

namespace GraphFM

/-! ### Graph-structure selector (gat_attention, lines 79-92)

The scorer output `S` (a sigmoid, hence valued in (0,1)) is abstracted as a
row vector over the fields; `tf.nn.top_k` followed by `reduce_min` yields the
k-th largest score, `topk = cast(S >= kth)` the 0/1 mask, and `S * topk` the
visibility row. -/

/-- The k-th largest entry of `S` (1-indexed), as computed by
`tf.nn.top_k(S, k)` followed by `tf.reduce_min`: sort ascending and take the
entry at position `M - k`. -/
def kthLargest {M : ℕ} (S : Fin M → ℚ) (k : ℕ) : ℚ :=
  ((List.ofFn S).insertionSort (· ≤ ·)).getD (M - k) 0

/-- `topk = tf.cast(tf.greater_equal(S, kth), tf.float32)` (line 87). -/
def topkMask {M : ℕ} (S : Fin M → ℚ) (k : ℕ) : Fin M → ℚ :=
  fun j => if kthLargest S k ≤ S j then 1 else 0

/-- `S = S * topk` (line 88): the visibility row returned by the selector. -/
def visRow {M : ℕ} (S : Fin M → ℚ) (k : ℕ) : Fin M → ℚ :=
  fun j => S j * topkMask S k j

/-- Number of nonzero entries of a row vector. -/
def numNonzero {M : ℕ} (v : Fin M → ℚ) : ℕ :=
  (List.ofFn v).countP (fun x => decide (x ≠ 0))

/-! ### Masked attention logits and softmax (gat_attention, lines 92-95) -/

/-- `A_ = S * A_` (line 92): the top-k mask multiplies the attention logits. -/
def maskedLogits {M : ℕ} (S A : Fin M → ℝ) : Fin M → ℝ :=
  fun i => S i * A i

/-- `tf.nn.softmax(A_, axis=1)` (line 95), per head and sample, over the
field axis. -/
noncomputable def softmax {M : ℕ} (z : Fin M → ℝ) : Fin M → ℝ :=
  fun j => Real.exp (z j) / ∑ i, Real.exp (z i)

/-! ### Feature embedding (generic `_init_graph` lines 181-185, movielens
lines 183-197) -/

/-- Single-value fields: `embedding_lookup` then elementwise multiply by the
reshaped feature value. -/
def embedSingle {B Ms d : ℕ} (table : ℕ → Fin d → ℚ) (Xi : Fin B → Fin Ms → ℕ)
    (Xv : Fin B → Fin Ms → ℚ) : Fin B → Fin Ms → Fin d → ℚ :=
  fun b m t => table (Xi b m) t * Xv b m

/-- Multi-value (genre) field of the movielens variant: lookup, multiply by
the genre values, sum over the six slots, and divide by the sum of the genre
values (lines 189-194). -/
def embedGenre {B d : ℕ} (table : ℕ → Fin d → ℚ) (Gi : Fin B → Fin 6 → ℕ)
    (Gv : Fin B → Fin 6 → ℚ) : Fin B → Fin d → ℚ :=
  fun b t => (∑ j, table (Gi b j) t * Gv b j) / (∑ j, Gv b j)

/-- `tf.concat([embeddings, expand_dims(embeddings_m, 1)], 1)` (line 197):
the `Ms` single-value fields followed by the one effective genre field. -/
def embedConcat {B Ms d : ℕ} (table : ℕ → Fin d → ℚ) (Xi : Fin B → Fin Ms → ℕ)
    (Xv : Fin B → Fin Ms → ℚ) (Gi : Fin B → Fin 6 → ℕ) (Gv : Fin B → Fin 6 → ℚ) :
    Fin B → Fin (Ms + 1) → Fin d → ℚ :=
  fun b m t =>
    if h : (m : ℕ) < Ms then embedSingle table Xi Xv b ⟨m, h⟩ t
    else embedGenre table Gi Gv b t

/-! ### Early stopping (`training_termination` lines 420-434, `fit_once`
lines 415-418) -/

/-- Python negative indexing `l[-i]` for `1 ≤ i ≤ len(l)`. -/
def lastn (l : List ℚ) (i : ℕ) : ℚ := l.getD (l.length - i) 0

/-- Transcription of `training_termination`: with more than five recorded
losses, compare the last five pairwise, in the direction given by
`greater_is_better`. -/
def training_termination (greater_is_better : Bool) (vr : List ℚ) : Bool :=
  if 5 < vr.length then
    if greater_is_better then
      decide (lastn vr 1 < lastn vr 2 ∧ lastn vr 2 < lastn vr 3 ∧
        lastn vr 3 < lastn vr 4 ∧ lastn vr 4 < lastn vr 5)
    else
      decide (lastn vr 2 < lastn vr 1 ∧ lastn vr 3 < lastn vr 2 ∧
        lastn vr 4 < lastn vr 3 ∧ lastn vr 5 < lastn vr 4)
  else false

/-- The return value of `fit_once` (lines 415-418): `False` (stop) exactly
when a validation set is present, early stopping is on, and
`training_termination` fires. -/
def fit_once_decision (has_valid early_stopping greater_is_better : Bool)
    (valid_loss : List ℚ) : Bool :=
  if has_valid && early_stopping && training_termination greater_is_better valid_loss then
    false
  else true

/-! ### Prediction head width (`_initialize_weights` line 307 and 333-339,
`_init_graph` lines 236-240) -/

/-- `input_size = sum(self.block_shape)` (line 307). -/
def input_size (block_shape : List ℕ) : ℕ := block_shape.sum

/-- Shape of `weights["prediction"]` (lines 335-337). -/
def predictionWeightShape (block_shape : List ℕ) : ℕ × ℕ :=
  (input_size block_shape, 1)

/-- `tf.concat(h_list, axis=-1)` (line 236) on the last axis, for one sample:
the per-layer pooled vectors concatenated. -/
def flatConcat (h_list : List (List ℝ)) : List ℝ := h_list.flatten

/-! ### Batching and predict (`get_batch` lines 351-355, `predict` lines
436-464) -/

/-- Transcription of `get_batch`: python slices `Xi[start:end]`, where
`end = (index+1)*batch_size` capped at `len(y)`. -/
def get_batch {ι ν : Type} (Xi : List ι) (Xv : List ν) (y : List ℚ)
    (batch_size index : ℕ) : List ι × List ν × List (List ℚ) :=
  ((Xi.take (min ((index + 1) * batch_size) y.length)).drop (index * batch_size),
   (Xv.take (min ((index + 1) * batch_size) y.length)).drop (index * batch_size),
   ((y.take (min ((index + 1) * batch_size) y.length)).drop (index * batch_size)).map
     (fun z => [z]))

/-- `dummy_y = [1] * len(Xi)` (line 443). -/
def dummy_y {ι : Type} (Xi : List ι) : List ℚ := List.replicate Xi.length 1

/-- The `while len(Xi_batch) > 0` loop of `predict` (lines 447-462).  The
network evaluation `sess.run(self.out, ...)` is abstracted as `f`, producing
one output per sample of the batch.  `y_pred` starts as `None` and is first
assigned inside the loop, so it stays `None` when the first batch is empty. -/
def predictLoop {ι ν : Type} (f : List ι → List ν → List ℚ) (Xi : List ι)
    (Xv : List ν) (bs idx : ℕ) (ypred : Option (List ℚ)) : Option (List ℚ) :=
  if h : 0 < (get_batch Xi Xv (dummy_y Xi) bs idx).1.length then
    predictLoop f Xi Xv bs (idx + 1)
      (if idx = 0 then
        some (f (get_batch Xi Xv (dummy_y Xi) bs idx).1
          (get_batch Xi Xv (dummy_y Xi) bs idx).2.1)
      else
        some (ypred.getD [] ++
          f (get_batch Xi Xv (dummy_y Xi) bs idx).1
            (get_batch Xi Xv (dummy_y Xi) bs idx).2.1))
  else ypred
termination_by Xi.length - idx * bs
decreasing_by
  simp only [get_batch, dummy_y, List.length_drop, List.length_take,
    List.length_replicate] at h
  omega

/-- `predict` (lines 436-464): run the loop from batch index 0 with `y_pred`
initialised to `None`. -/
def predict {ι ν : Type} (f : List ι → List ν → List ℚ) (Xi : List ι)
    (Xv : List ν) (bs : ℕ) : Option (List ℚ) :=
  predictLoop f Xi Xv bs 0 none

/-! ### Output head (`_init_graph` lines 246-252) -/

/-- `tf.nn.sigmoid`. -/
noncomputable def sigmoid (x : ℝ) : ℝ := 1 / (1 + Real.exp (-x))

/-- Lines 246-252: a sigmoid is applied to the logit when
`loss_type == "logloss"`; for `"mse"` the raw logit is kept. -/
noncomputable def finalOutput (loss_type : String) (logit : ℝ) : ℝ :=
  if loss_type = "logloss" then sigmoid logit else logit

/-! ### Layer normalization (`normalize`, lines 24-42) -/

/-- Mean over the last dimension, as in `tf.nn.moments(inputs, [-1])`. -/
noncomputable def momentsMean {n : ℕ} (v : Fin n → ℝ) : ℝ := (∑ i, v i) / n

/-- Population variance over the last dimension, as in `tf.nn.moments`. -/
noncomputable def momentsVar {n : ℕ} (v : Fin n → ℝ) : ℝ :=
  (∑ i, (v i - momentsMean v) ^ 2) / n

/-- `normalized = (inputs - mean) / ((variance + epsilon) ** 0.5)` (line 39).
Since `variance + epsilon ≥ 0` always holds, the power `** 0.5` is the
square root. -/
noncomputable def normalizedPre {n : ℕ} (eps : ℝ) (v : Fin n → ℝ) : Fin n → ℝ :=
  fun i => (v i - momentsMean v) / Real.sqrt (momentsVar v + eps)

/-- `outputs = gamma * normalized + beta` (line 40). -/
noncomputable def normalize {n : ℕ} (gamma beta : Fin n → ℝ) (eps : ℝ)
    (v : Fin n → ℝ) : Fin n → ℝ :=
  fun i => gamma i * normalizedPre eps v i + beta i

/-! ### Evaluation (`evaluate` lines 516-525, `GraphFM.__init__` line 154)

`evaluate` clips the output of `predict` into `[1e-6, 1-1e-6]` and feeds the
clipped predictions to `self.eval_metric = sklearn.metrics.roc_auc_score`
and to `sklearn.metrics.log_loss`.  The predictions returned by `predict`
are abstracted as the list `y_pred`. -/

/-- `np.clip(x, lo, hi) = min(max(x, lo), hi)`. -/
def clip (lo hi x : ℚ) : ℚ := min (max x lo) hi

/-- `y_pred = np.clip(y_pred, 1e-6, 1 - 1e-6)` (line 524). -/
def clippedPreds (y_pred : List ℚ) : List ℚ :=
  y_pred.map (clip (1 / 1000000) (1 - 1 / 1000000))

/-- The Mann-Whitney statistic computed by `roc_auc_score` on binary labels
when both classes are present: the fraction of positive/negative pairs
ranked correctly, counting ties at half weight. -/
def aucStat (y p : List ℚ) : ℚ :=
  let pos := ((y.zip p).filter (fun a => a.1 = 1)).map (fun a => a.2)
  let neg := ((y.zip p).filter (fun a => a.1 = 0)).map (fun a => a.2)
  ((pos.map (fun u => ((neg.filter (fun v => v < u)).length : ℚ) +
      ((neg.filter (fun v => v = u)).length : ℚ) / 2)).sum) /
    ((pos.length : ℚ) * (neg.length : ℚ))

/-- Model of `sklearn.metrics.roc_auc_score` (external library, configured
as `self.eval_metric` at line 154): it raises
`ValueError: Only one class present in y_true ...` whenever the label vector
contains fewer than two distinct values, and otherwise returns the AUC. -/
def roc_auc_score (y p : List ℚ) : Except String ℚ :=
  if y.dedup.length < 2 then
    Except.error "Only one class present in y_true. ROC AUC score is not defined in that case."
  else Except.ok (aucStat y p)

/-- Model of `sklearn.metrics.log_loss` on binary labels:
`-(1/N) * sum(y*log(p) + (1-y)*log(1-p))`. -/
noncomputable def log_loss (y p : List ℚ) : ℝ :=
  -(((y.zip p).map (fun a =>
      (a.1 : ℝ) * Real.log (a.2 : ℝ) +
      (1 - (a.1 : ℝ)) * Real.log (1 - (a.2 : ℝ)))).sum) / (y.length : ℝ)

/-- The metric pair `(eval_metric(y, y_pred), log_loss(y, y_pred))` of line
525, on already-clipped predictions; the tuple is built left to right, so an
exception from `roc_auc_score` propagates before `log_loss` is reached. -/
noncomputable def metricsOn (y yc : List ℚ) : Except String (ℚ × ℝ) :=
  match roc_auc_score y yc with
  | Except.error e => Except.error e
  | Except.ok a => Except.ok (a, log_loss y yc)

/-- `evaluate` (lines 516-525): clip the predictions, then compute the two
metrics. -/
noncomputable def evaluate (y y_pred : List ℚ) : Except String (ℚ × ℝ) :=
  metricsOn y (clippedPreds y_pred)

/-! ## Theorems -/

/-- In an ascending-sorted list of length `M`, at least `k` entries are at
least as large as the entry at position `M - k`. -/
theorem countP_ge_kth {M k : ℕ} (S : Fin M → ℚ) (hk1 : 1 ≤ k) (hk2 : k ≤ M) :
    k ≤ (List.ofFn S).countP (fun x => decide (kthLargest S k ≤ x)) := by
  set l := (List.ofFn S).insertionSort (· ≤ ·) with hl
  have hlen : l.length = M := by
    rw [hl, List.length_insertionSort, List.length_ofFn]
  have hsort : l.Sorted (· ≤ ·) := List.sorted_insertionSort _ _
  have hperm : l.Perm (List.ofFn S) := List.perm_insertionSort _ _
  rw [← hperm.countP_eq]
  have hMk : M - k < l.length := by omega
  have hkth : kthLargest S k = l.get ⟨M - k, hMk⟩ := by
    rw [kthLargest, ← hl, List.getD_eq_get]
  have hdrop : ∀ x ∈ l.drop (M - k), kthLargest S k ≤ x := by
    intro x hx
    obtain ⟨i, hi, hx⟩ := List.mem_iff_getElem.mp hx
    have hi2 : M - k + i < l.length := by
      have := List.length_drop (M - k) l
      omega
    have : (l.drop (M - k))[i] = l.get ⟨M - k + i, hi2⟩ := by
      simp [List.getElem_drop]
    rw [← hx, this, hkth]
    exact hsort.rel_get_of_le (by simp [Fin.le_def])
  have hsplit : l.countP (fun x => decide (kthLargest S k ≤ x)) =
      (l.take (M - k)).countP (fun x => decide (kthLargest S k ≤ x)) +
      (l.drop (M - k)).countP (fun x => decide (kthLargest S k ≤ x)) := by
    conv_lhs => rw [← List.take_append_drop (M - k) l]
    rw [List.countP_append]
  have hfull : (l.drop (M - k)).countP (fun x => decide (kthLargest S k ≤ x)) =
      (l.drop (M - k)).length :=
    List.countP_eq_length.mpr (fun a ha => by simpa using hdrop a ha)
  have hdl : (l.drop (M - k)).length = k := by
    rw [List.length_drop]; omega
  omega

/-- Claim C1: the visibility row produced by the graph-structure selector in
`gat_attention` keeps exactly the fields whose relevance score is at least
the k-th largest score, the surviving entries equal the raw scores, all
other entries are exactly 0, and (the scores being sigmoid outputs, hence in
(0,1)) at least `k` entries are nonzero, with more only on ties at the
cutoff. -/
theorem gat_attention_topk_selection {M k : ℕ} (S : Fin M → ℚ)
    (hS : ∀ j, 0 < S j ∧ S j < 1) (hk1 : 1 ≤ k) (hk2 : k ≤ M) :
    (∀ j, visRow S k j = if kthLargest S k ≤ S j then S j else 0) ∧
    k ≤ numNonzero (visRow S k) := by
  constructor
  · intro j
    rw [visRow, topkMask]
    split <;> simp
  · have hcnt : numNonzero (visRow S k) =
        (List.ofFn S).countP (fun x => decide (kthLargest S k ≤ x)) := by
      rw [numNonzero, List.ofFn_eq_map, List.ofFn_eq_map, List.countP_map,
        List.countP_map]
      apply List.countP_congr
      intro j _
      simp only [Function.comp_apply, decide_eq_true_eq]
      rw [visRow, topkMask]
      constructor
      · intro hne
        by_contra hlt
        rw [if_neg hlt, mul_zero] at hne
        exact hne rfl
      · intro hge
        rw [if_pos hge, mul_one]
        exact (hS j).1.ne'
    rw [hcnt]
    exact countP_ge_kth S hk1 hk2

/-- Witness for C1 at a concrete score row: `M = 3`, `k = 2`,
`S = (1/2, 1/4, 3/4)`. -/
theorem gat_attention_topk_selection_witness :
    (∀ j, visRow (M := 3) ![1/2, 1/4, 3/4] 2 j =
      if kthLargest (M := 3) ![1/2, 1/4, 3/4] 2 ≤ (![1/2, 1/4, 3/4] : Fin 3 → ℚ) j
      then (![1/2, 1/4, 3/4] : Fin 3 → ℚ) j else 0) ∧
    2 ≤ numNonzero (visRow (M := 3) ![1/2, 1/4, 3/4] 2) :=
  gat_attention_topk_selection ![1/2, 1/4, 3/4]
    (by intro j; fin_cases j <;> norm_num) (by norm_num) (by norm_num)

/-- Claim C2: the top-k mask is applied multiplicatively to the attention
logits, so a masked-out field (mask entry 0) enters the softmax with logit
exactly 0, not `-inf`, and therefore keeps a strictly positive post-softmax
weight equal to `exp(0)` over the softmax normalizer. -/
theorem gat_attention_soft_masking {M : ℕ} (S A : Fin M → ℝ) (j : Fin M)
    (hS : S j = 0) :
    maskedLogits S A j = 0 ∧
    softmax (maskedLogits S A) j =
      Real.exp 0 / ∑ i, Real.exp (maskedLogits S A i) ∧
    0 < softmax (maskedLogits S A) j := by
  have h0 : maskedLogits S A j = 0 := by rw [maskedLogits, hS, zero_mul]
  have hsum : 0 < ∑ i, Real.exp (maskedLogits S A i) :=
    Finset.sum_pos (fun i _ => Real.exp_pos _) ⟨j, Finset.mem_univ j⟩
  refine ⟨h0, ?_, ?_⟩
  · rw [softmax, h0]
  · rw [softmax]
    exact div_pos (Real.exp_pos _) hsum

/-- Witness for C2 at `M = 2`, mask row `(0, 1/2)`, logits `(3, 5)`,
masked-out field `j = 0`. -/
theorem gat_attention_soft_masking_witness :
    maskedLogits ![0, 1/2] ![3, 5] 0 = 0 ∧
    softmax (maskedLogits ![0, 1/2] ![3, 5]) 0 =
      Real.exp 0 / ∑ i, Real.exp (maskedLogits ![0, 1/2] ![3, 5] i) ∧
    0 < softmax (maskedLogits ![(0 : ℝ), 1/2] ![3, 5]) 0 :=
  gat_attention_soft_masking ![0, 1/2] ![3, 5] 0 rfl

/-- Claim C3: before dropout, each single-value field embedding equals the
table row at the feature index scaled by the feature value; in the
multi-value (movielens) variant the effective genre field is the
value-weighted mean of the genre embeddings, i.e. it satisfies
`genreField * sum(genre_value) = sum(table[idx]*val)` under the unchecked
precondition `sum(genre_value) ≠ 0`. -/
theorem feature_embedding_contract {B N d : ℕ} (table : ℕ → Fin d → ℚ)
    (Xi : Fin B → Fin N → ℕ) (Xv : Fin B → Fin N → ℚ)
    (Gi : Fin B → Fin 6 → ℕ) (Gv : Fin B → Fin 6 → ℚ) (b : Fin B) (t : Fin d)
    (hsum : ∑ j, Gv b j ≠ 0) :
    (∀ m : Fin N, embedSingle table Xi Xv b m t = table (Xi b m) t * Xv b m) ∧
    (∀ m : Fin N, embedConcat table Xi Xv Gi Gv b m.castSucc t =
      table (Xi b m) t * Xv b m) ∧
    (embedConcat table Xi Xv Gi Gv b (Fin.last N) t * ∑ j, Gv b j =
      ∑ j, table (Gi b j) t * Gv b j) := by
  refine ⟨fun m => rfl, fun m => ?_, ?_⟩
  · rw [embedConcat]
    rw [dif_pos (show ((m.castSucc : Fin (N + 1)) : ℕ) < N from m.isLt)]
    rfl
  · rw [embedConcat]
    rw [dif_neg (show ¬((Fin.last N : Fin (N + 1)) : ℕ) < N from Nat.lt_irrefl N)]
    rw [embedGenre]
    exact div_mul_cancel₀ _ hsum

/-- Witness for C3 at a concrete batch: one sample, one single-value field,
embedding size 1, genre values `(1, 2, 0, 0, 0, 0)`. -/
theorem feature_embedding_contract_witness :
    (∀ m : Fin 1, embedSingle (fun n _ => (n : ℚ)) (fun _ _ => 7)
      (fun _ _ => 3) (0 : Fin 1) m (0 : Fin 1) = (7 : ℚ) * 3) ∧
    (∀ m : Fin 1, embedConcat (fun n _ => (n : ℚ)) (fun _ _ => 7)
      (fun _ _ => 3) (fun _ j => (j : ℕ))
      (fun _ j => if j = 0 then (1 : ℚ) else 0)
      (0 : Fin 1) m.castSucc (0 : Fin 1) = (7 : ℚ) * 3) ∧
    (embedConcat (fun n _ => (n : ℚ)) (fun _ _ => 7) (fun _ _ => 3)
      (fun _ j => (j : ℕ)) (fun _ j => if j = 0 then (1 : ℚ) else 0) (0 : Fin 1)
      (Fin.last 1) (0 : Fin 1) *
      ∑ j : Fin 6, (if j = 0 then (1 : ℚ) else 0) =
      ∑ j : Fin 6, ((j : ℕ) : ℚ) * (if j = 0 then (1 : ℚ) else 0)) :=
  feature_embedding_contract (fun n _ => (n : ℚ))
    (fun _ _ => 7) (fun _ _ => 3) (fun _ j => (j : ℕ))
    (fun _ j => if j = 0 then (1 : ℚ) else 0) (0 : Fin 1) (0 : Fin 1)
    (by simp [Fin.sum_univ_six])

/-- Claim C4 (part of the statement): the recorded trend over the last five
losses.  These index identities let the getD-based statement be read off the
`lastn` comparisons. -/
theorem training_termination_not_gib (vr : List ℚ) :
    (training_termination false vr = true ↔
      5 < vr.length ∧
      ∀ i : ℕ, vr.length - 5 ≤ i → i + 1 < vr.length →
        vr.getD i 0 < vr.getD (i + 1) 0) ∧
    (∀ has_valid early_stopping : Bool,
      (fit_once_decision has_valid early_stopping false vr = false ↔
        has_valid = true ∧ early_stopping = true ∧
        training_termination false vr = true)) := by
  constructor
  · constructor
    · intro h
      rw [training_termination] at h
      by_cases hlen : 5 < vr.length
      · rw [if_pos hlen] at h
        rw [if_neg Bool.false_ne_true, decide_eq_true_eq] at h
        refine ⟨hlen, ?_⟩
        intro i h1 h2
        have hcase : i = vr.length - 5 ∨ i = vr.length - 4 ∨
            i = vr.length - 3 ∨ i = vr.length - 2 := by omega
        have e5 : lastn vr 5 = vr.getD (vr.length - 5) 0 := rfl
        have e4 : lastn vr 4 = vr.getD (vr.length - 4) 0 := rfl
        have e3 : lastn vr 3 = vr.getD (vr.length - 3) 0 := rfl
        have e2 : lastn vr 2 = vr.getD (vr.length - 2) 0 := rfl
        have e1 : lastn vr 1 = vr.getD (vr.length - 1) 0 := rfl
        obtain ⟨c1, c2, c3, c4⟩ := h
        rcases hcase with rfl | rfl | rfl | rfl
        · have : vr.length - 5 + 1 = vr.length - 4 := by omega
          rw [this]; rw [e5, e4] at c4; exact c4
        · have : vr.length - 4 + 1 = vr.length - 3 := by omega
          rw [this]; rw [e4, e3] at c3; exact c3
        · have : vr.length - 3 + 1 = vr.length - 2 := by omega
          rw [this]; rw [e3, e2] at c2; exact c2
        · have : vr.length - 2 + 1 = vr.length - 1 := by omega
          rw [this]; rw [e2, e1] at c1; exact c1
      · rw [if_neg hlen] at h
        exact absurd h (by simp)
    · rintro ⟨hlen, hmono⟩
      rw [training_termination, if_pos hlen]
      rw [if_neg Bool.false_ne_true, decide_eq_true_eq]
      have g5 : vr.length - 5 + 1 = vr.length - 4 := by omega
      have g4 : vr.length - 4 + 1 = vr.length - 3 := by omega
      have g3 : vr.length - 3 + 1 = vr.length - 2 := by omega
      have g2 : vr.length - 2 + 1 = vr.length - 1 := by omega
      refine ⟨?_, ?_, ?_, ?_⟩
      · have := hmono (vr.length - 2) (by omega) (by omega)
        rw [g2] at this; exact this
      · have := hmono (vr.length - 3) (by omega) (by omega)
        rw [g3] at this; exact this
      · have := hmono (vr.length - 4) (by omega) (by omega)
        rw [g4] at this; exact this
      · have := hmono (vr.length - 5) (by omega) (by omega)
        rw [g5] at this; exact this
  · intro hv es
    rw [fit_once_decision]
    constructor
    · intro h
      by_cases hc : (hv && es && training_termination false vr) = true
      · simp only [Bool.and_eq_true] at hc
        exact ⟨hc.1.1, hc.1.2, hc.2⟩
      · rw [if_neg hc] at h
        exact absurd h (by simp)
    · rintro ⟨h1, h2, h3⟩
      rw [if_pos (by rw [h1, h2, h3]; rfl)]

/-- Witness for C4: six strictly increasing recorded losses trigger the
termination test, and the characterization yields the monotone-trend
reading. -/
theorem training_termination_not_gib_witness :
    5 < ([0, 1, 2, 3, 4, 5] : List ℚ).length ∧
    ∀ i : ℕ, ([0, 1, 2, 3, 4, 5] : List ℚ).length - 5 ≤ i →
      i + 1 < ([0, 1, 2, 3, 4, 5] : List ℚ).length →
      ([0, 1, 2, 3, 4, 5] : List ℚ).getD i 0 <
        ([0, 1, 2, 3, 4, 5] : List ℚ).getD (i + 1) 0 :=
  (training_termination_not_gib [0, 1, 2, 3, 4, 5]).1.mp (by decide)

/-- Claim C6: with `loss_type == "logloss"` the model output passes through
a sigmoid, so `predict` yields exactly one value per sample, each strictly
inside `(0,1)`; with `loss_type == "mse"` the raw regression output is
kept. -/
theorem predict_output_range (logits : List ℝ) :
    (logits.map (finalOutput "logloss")).length = logits.length ∧
    (∀ x ∈ logits.map (finalOutput "logloss"), 0 < x ∧ x < 1) ∧
    (∀ x : ℝ, finalOutput "mse" x = x) := by
  refine ⟨List.length_map _ _, ?_, ?_⟩
  · intro x hx
    obtain ⟨y, _, rfl⟩ := List.mem_map.mp hx
    rw [finalOutput, if_pos rfl, sigmoid]
    have hexp : 0 < Real.exp (-y) := Real.exp_pos _
    constructor
    · positivity
    · rw [div_lt_one (by linarith)]
      linarith
  · intro x
    rw [finalOutput, if_neg (by decide)]

/-- Witness for C6 at logit 0. -/
theorem predict_output_range_witness :
    0 < finalOutput "logloss" 0 ∧ finalOutput "logloss" 0 < 1 :=
  (predict_output_range [0]).2.1 (finalOutput "logloss" 0) (by simp)

/-- The population variance is nonnegative. -/
theorem momentsVar_nonneg {n : ℕ} (v : Fin n → ℝ) : 0 ≤ momentsVar v := by
  rw [momentsVar]
  positivity

/-- The centered values sum to zero. -/
theorem sum_sub_momentsMean {n : ℕ} (hn : 0 < n) (v : Fin n → ℝ) :
    ∑ i, (v i - momentsMean v) = 0 := by
  have hnz : (n : ℝ) ≠ 0 := Nat.cast_ne_zero.mpr hn.ne'
  rw [Finset.sum_sub_distrib, Finset.sum_const, Finset.card_univ,
    Fintype.card_fin, nsmul_eq_mul, momentsMean]
  field_simp

/-- Claim C7: `normalize` is classic layer normalization — subtract the
mean, divide by `sqrt(variance + eps)`, then scale by gamma and shift by
beta; before the scale/shift the normalized vector has mean exactly 0 and
variance `var/(var+eps)`, within `eps/(var+eps)` of 1. -/
theorem normalize_layer_norm {n : ℕ} (gamma beta : Fin n → ℝ) (eps : ℝ)
    (v : Fin n → ℝ) (hn : 0 < n) (heps : 0 < eps) :
    (∀ i, normalize gamma beta eps v i =
      gamma i * ((v i - momentsMean v) / Real.sqrt (momentsVar v + eps)) +
        beta i) ∧
    momentsMean (normalizedPre eps v) = 0 ∧
    momentsVar (normalizedPre eps v) = momentsVar v / (momentsVar v + eps) ∧
    |momentsVar (normalizedPre eps v) - 1| ≤ eps / (momentsVar v + eps) := by
  have hvpos : 0 < momentsVar v + eps := by
    have := momentsVar_nonneg v
    linarith
  have hc2 : Real.sqrt (momentsVar v + eps) ^ 2 = momentsVar v + eps :=
    Real.sq_sqrt hvpos.le
  have hmean : momentsMean (normalizedPre eps v) = 0 := by
    rw [momentsMean]
    have : ∑ i, normalizedPre eps v i =
        (∑ i, (v i - momentsMean v)) / Real.sqrt (momentsVar v + eps) := by
      rw [Finset.sum_div]
      rfl
    rw [this, sum_sub_momentsMean hn v, zero_div, zero_div]
  have hvar : momentsVar (normalizedPre eps v) =
      momentsVar v / (momentsVar v + eps) := by
    rw [momentsVar, hmean]
    have hterm : ∀ i, (normalizedPre eps v i - 0) ^ 2 =
        (v i - momentsMean v) ^ 2 / (momentsVar v + eps) := by
      intro i
      rw [sub_zero, normalizedPre, div_pow, hc2]
    rw [Finset.sum_congr rfl (fun i _ => hterm i), ← Finset.sum_div,
      momentsVar, div_div, div_div, mul_comm]
  refine ⟨fun i => rfl, hmean, hvar, ?_⟩
  rw [hvar]
  have : momentsVar v / (momentsVar v + eps) - 1 =
      -(eps / (momentsVar v + eps)) := by
    field_simp
  rw [this, abs_neg, abs_of_pos (div_pos heps hvpos)]

/-- Witness for C7 at the vector `(1, 3)` with `eps = 1`, `gamma = (1,1)`,
`beta = (0,0)`. -/
theorem normalize_layer_norm_witness :
    (∀ i, normalize ![1, 1] ![0, 0] 1 ![1, 3] i =
      (![1, 1] : Fin 2 → ℝ) i *
        (((![1, 3] : Fin 2 → ℝ) i - momentsMean ![1, 3]) /
          Real.sqrt (momentsVar ![(1 : ℝ), 3] + 1)) + (![0, 0] : Fin 2 → ℝ) i) ∧
    momentsMean (normalizedPre 1 ![(1 : ℝ), 3]) = 0 ∧
    momentsVar (normalizedPre 1 ![(1 : ℝ), 3]) =
      momentsVar ![(1 : ℝ), 3] / (momentsVar ![(1 : ℝ), 3] + 1) ∧
    |momentsVar (normalizedPre 1 ![(1 : ℝ), 3]) - 1| ≤
      1 / (momentsVar ![(1 : ℝ), 3] + 1) :=
  normalize_layer_norm ![1, 1] ![0, 0] 1 ![1, 3] two_pos one_pos

/-- Claim C8: the per-sample vector fed into the prediction head — the
concatenation over layers of the per-layer outputs, each of width
`block_shape[i]` — has width `sum(block_shape)`, which is exactly the row
count of the `prediction` weight matrix created at initialization. -/
theorem prediction_input_width (block_shape : List ℕ) (h_list : List (List ℝ))
    (hlen : h_list.length = block_shape.length)
    (hw : ∀ i (h : i < h_list.length),
      (h_list.get ⟨i, h⟩).length = block_shape.get ⟨i, by omega⟩) :
    (flatConcat h_list).length = (predictionWeightShape block_shape).1 := by
  have hmap : h_list.map List.length = block_shape := by
    apply List.ext_get (by simpa using hlen)
    intro i h1 h2
    simpa using hw i (by simpa using h1)
  rw [flatConcat, List.length_flatten, hmap, predictionWeightShape, input_size]

/-- Witness for C8 with `block_shape = [2, 1]` and per-layer vectors of
widths 2 and 1. -/
theorem prediction_input_width_witness :
    (flatConcat [[1, 2], [3]]).length = (predictionWeightShape [2, 1]).1 :=
  prediction_input_width [2, 1] [[1, 2], [3]] (by decide)
    (by decide)

/-- Length of the first component of a batch. -/
theorem get_batch_fst_length {ι ν : Type} (Xi : List ι) (Xv : List ν)
    (y : List ℚ) (bs idx : ℕ) :
    (get_batch Xi Xv y bs idx).1.length =
      min (min ((idx + 1) * bs) y.length) Xi.length - idx * bs := by
  simp [get_batch]

/-- From batch index `idx ≥ 1` on, the loop accumulates one output per
remaining sample: if it starts with `some acc` it ends with a `some` list of
length `acc.length + (n - idx*bs)`. -/
theorem predictLoop_some_length {ι ν : Type} (f : List ι → List ν → List ℚ)
    (Xi : List ι) (Xv : List ν) (bs : ℕ)
    (hf : ∀ a b, (f a b).length = a.length) (hbs : 0 < bs) :
    ∀ m idx acc, 1 ≤ idx → Xi.length - idx * bs ≤ m →
      ∃ r, predictLoop f Xi Xv bs idx (some acc) = some r ∧
        r.length = acc.length + (Xi.length - idx * bs) := by
  intro m
  induction m with
  | zero =>
    intro idx acc hidx hm
    rw [predictLoop]
    have hb : ¬0 < (get_batch Xi Xv (dummy_y Xi) bs idx).1.length := by
      rw [get_batch_fst_length]
      simp only [dummy_y, List.length_replicate]
      omega
    rw [dif_neg hb]
    exact ⟨acc, rfl, by omega⟩
  | succ m ih =>
    intro idx acc hidx hm
    rw [predictLoop]
    by_cases hb : 0 < (get_batch Xi Xv (dummy_y Xi) bs idx).1.length
    · rw [dif_pos hb, if_neg (by omega)]
      have hblen : (get_batch Xi Xv (dummy_y Xi) bs idx).1.length =
          min (min ((idx + 1) * bs) Xi.length) Xi.length - idx * bs := by
        rw [get_batch_fst_length]
        simp [dummy_y]
      have hlt : idx * bs < Xi.length := by
        rw [hblen] at hb
        omega
      obtain ⟨r, heq, hrlen⟩ := ih (idx + 1)
        (acc ++ f (get_batch Xi Xv (dummy_y Xi) bs idx).1
          (get_batch Xi Xv (dummy_y Xi) bs idx).2.1)
        (by omega)
        (by
          have h1 : idx * bs + bs ≤ (idx + 1) * bs := by ring_nf; omega
          omega)
      refine ⟨r, ?_, ?_⟩
      · exact heq
      · rw [hrlen, List.length_append, hf, hblen]
        have h1 : (idx + 1) * bs = idx * bs + bs := by ring
        omega
    · rw [dif_neg hb]
      refine ⟨acc, rfl, ?_⟩
      rw [get_batch_fst_length] at hb
      simp only [dummy_y, List.length_replicate] at hb
      have h1 : (idx + 1) * bs = idx * bs + bs := by ring
      omega

/-- Claim C9: `predict` is length-preserving only for non-empty input: for a
non-empty sample list it returns `Some` list of exactly `len(Xi)`
predictions, while for the empty list the loop never assigns `y_pred` and
`None` is returned (assuming a positive batch size and a network producing
one output per sample). -/
theorem predict_length_behaviour {ι ν : Type} (f : List ι → List ν → List ℚ)
    (Xi : List ι) (Xv : List ν) (bs : ℕ)
    (hf : ∀ a b, (f a b).length = a.length) (hbs : 0 < bs) :
    (Xi = [] → predict f Xi Xv bs = none) ∧
    (Xi ≠ [] → ∃ r, predict f Xi Xv bs = some r ∧ r.length = Xi.length) := by
  constructor
  · rintro rfl
    rw [predict, predictLoop]
    rw [dif_neg (by rw [get_batch_fst_length]; simp [dummy_y])]
  · intro hne
    have hn : 0 < Xi.length := List.length_pos.mpr hne
    rw [predict, predictLoop]
    have hb : 0 < (get_batch Xi Xv (dummy_y Xi) bs 0).1.length := by
      rw [get_batch_fst_length]
      simp only [dummy_y, List.length_replicate]
      omega
    rw [dif_pos hb, if_pos rfl]
    obtain ⟨r, heq, hrlen⟩ :=
      predictLoop_some_length f Xi Xv bs hf hbs Xi.length 1
        (f (get_batch Xi Xv (dummy_y Xi) bs 0).1
          (get_batch Xi Xv (dummy_y Xi) bs 0).2.1)
        le_rfl (by omega)
    refine ⟨r, heq, ?_⟩
    rw [hrlen, hf, get_batch_fst_length]
    simp only [dummy_y, List.length_replicate]
    omega

/-- Witness for C9: a one-sample input with batch size 1 and a network that
outputs one zero per sample. -/
theorem predict_length_behaviour_witness :
    ∃ r, predict (fun (a : List ℕ) (_ : List ℚ) => a.map (fun _ => (0 : ℚ)))
      [1] [1] 1 = some r ∧ r.length = ([1] : List ℕ).length :=
  (predict_length_behaviour (fun a _ => a.map (fun _ => (0 : ℚ))) [1] [1] 1
    (fun a _ => List.length_map a _) one_pos).2 (by simp)

/-- A duplicate-free list whose members are all equal has at most one
element. -/
theorem nodup_all_eq_length_le_one {α : Type} {c : α} :
    ∀ l : List α, l.Nodup → (∀ x ∈ l, x = c) → l.length ≤ 1
  | [], _, _ => by simp
  | [_], _, _ => by simp
  | a :: b :: t, hnd, hall => by
    exfalso
    have ha : a = c := hall a (by simp)
    have hb : b = c := hall b (by simp)
    have : a ∉ b :: t := (List.nodup_cons.mp hnd).1
    exact this (by rw [ha, ← hb]; exact List.mem_cons_self b t)

/-- A constant label vector dedups to at most one class. -/
theorem dedup_length_lt_two_of_const {c : ℚ} (y : List ℚ)
    (h : ∀ l ∈ y, l = c) : y.dedup.length < 2 := by
  have := nodup_all_eq_length_le_one y.dedup y.nodup_dedup
    (fun x hx => h x (List.mem_dedup.mp hx))
  omega

/-- Counterexample to claim C5 as stated: on the all-ones label batch
`[1, 1, 1]`, `evaluate` does not return a metric pair — the modelled
`roc_auc_score` raises, exactly as sklearn's does on a single-class
`y_true`. -/
theorem evaluate_constant_label_counterexample :
    evaluate [1, 1, 1] [1/2, 1/3, 2/3] =
      Except.error
        "Only one class present in y_true. ROC AUC score is not defined in that case." := by
  rw [evaluate, metricsOn, roc_auc_score, if_pos (by decide)]

/-- Claim C5, amended: on every non-empty batch whose labels are all 0 or
all 1, `evaluate` raises the single-class `ValueError` of `roc_auc_score`
instead of returning a degenerate AUC with the log-loss. -/
theorem evaluate_constant_label_raises (y y_pred : List ℚ)
    (hconst : (∀ l ∈ y, l = 0) ∨ (∀ l ∈ y, l = 1)) :
    ∃ e, evaluate y y_pred = Except.error e := by
  have hded : y.dedup.length < 2 := by
    rcases hconst with h | h
    · exact dedup_length_lt_two_of_const y h
    · exact dedup_length_lt_two_of_const y h
  refine ⟨"Only one class present in y_true. ROC AUC score is not defined in that case.", ?_⟩
  rw [evaluate, metricsOn, roc_auc_score, if_pos hded]

/-- Witness for the amended C5 at the all-zero label batch `[0, 0]`. -/
theorem evaluate_constant_label_raises_witness :
    ∃ e, evaluate [0, 0] [1/2, 1/4] = Except.error e :=
  evaluate_constant_label_raises [0, 0] [1/2, 1/4] (Or.inl (by decide))

/-- Claim C10: `evaluate` computes its metrics on the predictions clipped
into `[1e-6, 1 - 1e-6]`, and every clipped prediction lies in that closed
interval, in particular strictly between 0 and 1, so the logarithms inside
the log-loss always receive strictly positive arguments. -/
theorem evaluate_clips_predictions (y y_pred : List ℚ) :
    evaluate y y_pred = metricsOn y (clippedPreds y_pred) ∧
    ∀ x ∈ clippedPreds y_pred,
      1 / 1000000 ≤ x ∧ x ≤ 1 - 1 / 1000000 ∧ 0 < x ∧ x < 1 := by
  refine ⟨rfl, ?_⟩
  intro x hx
  obtain ⟨z, _, rfl⟩ := List.mem_map.mp hx
  rw [clip]
  have hlo : (1 / 1000000 : ℚ) ≤ min (max z (1 / 1000000)) (1 - 1 / 1000000) :=
    le_min (le_max_right _ _) (by norm_num)
  have hhi : min (max z (1 / 1000000)) (1 - 1 / 1000000) ≤ 1 - 1 / 1000000 :=
    min_le_right _ _
  refine ⟨hlo, hhi, ?_, ?_⟩
  · calc (0 : ℚ) < 1 / 1000000 := by norm_num
      _ ≤ _ := hlo
  · calc min (max z (1 / 1000000)) (1 - 1 / 1000000) ≤ 1 - 1 / 1000000 := hhi
      _ < 1 := by norm_num

/-- Witness for C10 at the raw prediction 2, which is clipped to
`1 - 1e-6`. -/
theorem evaluate_clips_predictions_witness :
    1 / 1000000 ≤ clip (1 / 1000000) (1 - 1 / 1000000) 2 ∧
    clip (1 / 1000000) (1 - 1 / 1000000) 2 ≤ 1 - 1 / 1000000 ∧
    0 < clip (1 / 1000000) (1 - 1 / 1000000) 2 ∧
    clip (1 / 1000000) (1 - 1 / 1000000) 2 < 1 :=
  (evaluate_clips_predictions [1] [2]).2
    (clip (1 / 1000000) (1 - 1 / 1000000) 2) (by simp [clippedPreds])

end GraphFM
